import Mathlib

/-!
Verification of the pancake stacked-branch CLI (`src/main.rs`).

The development shallowly embeds the branch-relationship graph
(`StackMetadata`), the operation planner (`collect_branch_sequence`),
stack navigation (`find_stack_top`, `find_stack_bottom`, `handle_up`),
branch deletion (`handle_branch_delete`) and the persisted operation
state machine (`process_pending_operation`, `continue_operation`,
`abort_operation`, `execute_operation`, `finalize_operation`).

External git effects (branch existence, checkout, rebase outcomes) are
modelled by an oracle environment (`GitEnv`); every file write of the
checkpoint is recorded as an explicit `.save` / `.clearCheckpoint`
event, and every git subprocess invocation as a `.git` event, so the
theorems can speak about what was persisted and which engine
primitives ran.  The recursions that the Rust code runs unboundedly
(`collect_branch_sequence`, `find_stack_top`, `find_stack_bottom`) are
given fuel `branches.length + 1`; on the acyclic graphs the spec
assumes (witnessed by a rank function that strictly increases from
parent to child) this fuel is proven sufficient, so the embedding
agrees with the source wherever the source terminates.
-/

namespace Pancake

/-- `BranchMetadata` from `src/main.rs`: recorded parent and creation time. -/
structure BranchMetadata where
  parent : Option String
  created_at : String
deriving DecidableEq, Repr

/-- `StackMetadata`: the persisted branch graph, a map from branch name to
its metadata.  The Rust `HashMap` is embedded as an association list; the
`HashMap` key-uniqueness invariant is the `Nodup` hypothesis of the theorems
that need it. -/
structure StackMetadata where
  branches : List (String × BranchMetadata)
deriving DecidableEq, Repr

/-- `metadata.branches.contains_key(name)`. -/
def StackMetadata.contains (m : StackMetadata) (name : String) : Bool :=
  m.branches.any (fun p => p.1 == name)

/-- `StackMetadata::get_parent`. -/
def StackMetadata.get_parent (m : StackMetadata) (name : String) : Option String :=
  match m.branches.find? (fun p => p.1 == name) with
  | some p => p.2.parent
  | none => none

/-- `StackMetadata::get_children`: all tracked names whose recorded parent
equals `name` (no ordering guarantee in the source; callers sort). -/
def StackMetadata.get_children (m : StackMetadata) (name : String) : List String :=
  (m.branches.filter (fun p => p.2.parent == some name)).map Prod.fst

/-- `StackMetadata::update_parent`: rewrite the parent field of an entry. -/
def StackMetadata.update_parent (m : StackMetadata) (name : String)
    (newParent : Option String) : StackMetadata :=
  ⟨m.branches.map fun p =>
    if p.1 = name then (p.1, ⟨newParent, p.2.created_at⟩) else p⟩

/-- `StackMetadata::remove_branch`. -/
def StackMetadata.remove_branch (m : StackMetadata) (name : String) : StackMetadata :=
  ⟨m.branches.filter fun p => p.1 != name⟩

/-- `children.sort()` from the Rust traversal: lexicographic sort (stable,
so any stable sort produces the identical list of strings). -/
def sortedChildren (m : StackMetadata) (b : String) : List String :=
  (m.get_children b).mergeSort (fun a b => decide (a ≤ b))

/-- The inner `dfs` of `collect_branch_sequence`, with explicit fuel (the
Rust recursion is unbounded; fuel is consumed once per tree level). -/
def dfsBranches (m : StackMetadata) : Nat → String → List String
  | 0, _ => []
  | fuel+1, b => b :: ((sortedChildren m b).flatMap fun c => dfsBranches m fuel c)

/-- `collect_branch_sequence`: pre-order DFS from `start_branch` when it is
tracked, `[]` otherwise.  Fuel `branches.length + 1` is sufficient on every
acyclic graph (proved below). -/
def collect_branch_sequence (m : StackMetadata) (start_branch : String) : List String :=
  if m.contains start_branch then dfsBranches m (m.branches.length + 1) start_branch
  else []

/-- Loop body of `StackMetadata::find_stack_top`, with fuel. -/
def find_stack_top_go (m : StackMetadata) : Nat → String → String
  | 0, current => current
  | fuel+1, current =>
    match m.get_children current with
    | [] => current
    | [c] => find_stack_top_go m fuel c
    | _ => current

/-- `StackMetadata::find_stack_top`. -/
def StackMetadata.find_stack_top (m : StackMetadata) (branch_name : String) : String :=
  find_stack_top_go m (m.branches.length + 1) branch_name

/-- Loop body of `StackMetadata::find_stack_bottom`, with fuel. -/
def find_stack_bottom_go (m : StackMetadata) : Nat → String → String
  | 0, current => current
  | fuel+1, current =>
    match m.get_parent current with
    | none => current
    | some parent =>
      if m.contains parent then find_stack_bottom_go m fuel parent else current

/-- `StackMetadata::find_stack_bottom`. -/
def StackMetadata.find_stack_bottom (m : StackMetadata) (branch_name : String) : String :=
  find_stack_bottom_go m (m.branches.length + 1) branch_name

/-- One parent/child edge of the graph: `c` is a tracked branch whose
recorded parent is `a`. -/
def childRel (m : StackMetadata) (a c : String) : Prop :=
  c ∈ m.get_children a

/-- `x` is `b` itself or a tracked descendant of `b`. -/
def Descendant (m : StackMetadata) : String → String → Prop :=
  Relation.ReflTransGen (childRel m)

/-- One step of the `find_stack_top` walk: `a` has exactly one child `c`. -/
def uniqueChildStep (m : StackMetadata) (a c : String) : Prop :=
  m.get_children a = [c]

/-- One step of the `find_stack_bottom` walk: move to a tracked parent. -/
def trackedParentStep (m : StackMetadata) (a p : String) : Prop :=
  m.get_parent a = some p ∧ m.contains p = true

/-- `OperationKind` from `src/main.rs`. -/
inductive OperationKind where
  | sync
  | restack
deriving DecidableEq, Repr

/-- `OperationKind::name`. -/
def OperationKind.name : OperationKind → String
  | .sync => "sync"
  | .restack => "restack"

/-- `OperationKind::past_tense`. -/
def OperationKind.past_tense : OperationKind → String
  | .sync => "Synced"
  | .restack => "Restacked"

/-- `PendingOperation`: the persisted checkpoint of an in-flight bulk
operation. -/
structure PendingOperation where
  kind : OperationKind
  branches : List String
  current_index : Nat
  original_branch : String
deriving DecidableEq, Repr

/-- `PendingOperation::new`: a fresh checkpoint at index 0. -/
def PendingOperation.new (kind : OperationKind) (branches : List String)
    (original_branch : String) : PendingOperation :=
  ⟨kind, branches, 0, original_branch⟩

/-- A git subprocess invocation issued by the state machine. -/
inductive GitCall where
  | checkout (branch : String)
  | rebase (branch parent : String)
  | rebaseContinue
  | rebaseAbort
deriving DecidableEq, Repr

/-- An observable effect: a git invocation, a checkpoint file write
(`PendingOperation::save`), or a checkpoint file removal
(`PendingOperation::clear`). -/
inductive PkEvent where
  | git (call : GitCall)
  | save (st : PendingOperation)
  | clearCheckpoint
deriving DecidableEq, Repr

/-- Oracle for the external git engine: whether a branch exists, the result
of each checkout, the result of the rebase attempted at a given sequence
index, and the results of `rebase --continue` / `rebase --abort`. -/
structure GitEnv where
  branchExists : String → Bool
  checkoutOk : String → Bool
  rebaseOk : Nat → Bool
  continueOk : Bool
  abortOk : Bool
  currentBranch : Option String

/-- Error values of the modelled commands (the Rust code reports these as
formatted `anyhow` messages; the constructors carry the same data). -/
inductive OpError where
  | branchGone (b : String)
  | noParent (b : String)
  | rebaseConflict (branch parent : String) (kind : OperationKind)
  | noOperation (kind : OperationKind)
  | kindMismatch (active : OperationKind)
  | alreadyInProgress (active : OperationKind)
  | gitFailed (call : GitCall)
  | flagsConflict
  | flagsCombo
  | headNotBranch
  | untracked (b : String)
  | noBranches (start : String)
deriving DecidableEq, Repr

/-- Result of `process_pending_operation`: outcome, the checkpoint now on
disk, and the ordered effects of the call. -/
structure ProcResult where
  result : Except OpError Unit
  persisted : Option PendingOperation
  events : List PkEvent
deriving Repr

/-- Result of a whole command. -/
structure OpResult where
  result : Except OpError String
  persisted : Option PendingOperation
  events : List PkEvent
deriving Repr

/-- Loop body of `process_pending_operation`, with fuel; the source loop
runs while `current_index < branches.len()`, and each iteration either
returns or increments `current_index`, so fuel
`branches.length - current_index` reproduces it exactly. -/
def process_go (env : GitEnv) (meta : StackMetadata) :
    Nat → PendingOperation → Option PendingOperation → ProcResult
  | 0, _, persisted => ⟨.ok (), persisted, []⟩
  | fuel+1, st, persisted =>
    if st.current_index < st.branches.length then
      let b := st.branches.getD st.current_index ""
      if env.branchExists b = false then ⟨.error (.branchGone b), persisted, []⟩
      else
        match meta.get_parent b with
        | none => ⟨.error (.noParent b), persisted, []⟩
        | some parent =>
          if env.checkoutOk b = false then
            ⟨.error (.gitFailed (.checkout b)), persisted, [.git (.checkout b)]⟩
          else if env.rebaseOk st.current_index = false then
            ⟨.error (.rebaseConflict b parent st.kind), persisted,
              [.git (.checkout b), .git (.rebase b parent)]⟩
          else
            let st' := { st with current_index := st.current_index + 1 }
            let rest := process_go env meta fuel st' (some st')
            ⟨rest.result, rest.persisted,
              .git (.checkout b) :: .git (.rebase b parent) :: .save st' :: rest.events⟩
    else ⟨.ok (), persisted, []⟩

/-- `process_pending_operation`: drive rebases from `current_index` to the
end of the sequence, persisting the checkpoint after every success and
stopping (without a write) on the first failure. -/
def process_pending_operation (env : GitEnv) (meta : StackMetadata)
    (persisted : Option PendingOperation) (st : PendingOperation) : ProcResult :=
  process_go env meta (st.branches.length - st.current_index) st persisted

/-- `finalize_operation`: clear the checkpoint, check out the original
branch, report the processed sequence. -/
def finalize_operation (env : GitEnv) (st : PendingOperation) : OpResult :=
  if env.checkoutOk st.original_branch then
    ⟨.ok (st.kind.past_tense ++ " " ++ toString st.branches.length ++ " branch(es): "
        ++ String.intercalate " -> " st.branches),
      none, [.clearCheckpoint, .git (.checkout st.original_branch)]⟩
  else
    ⟨.error (.gitFailed (.checkout st.original_branch)), none,
      [.clearCheckpoint, .git (.checkout st.original_branch)]⟩

/-- `continue_operation`. -/
def continue_operation (env : GitEnv) (meta : StackMetadata)
    (persisted : Option PendingOperation) (kind : OperationKind) : OpResult :=
  match persisted with
  | none => ⟨.error (.noOperation kind), none, []⟩
  | some st =>
    if st.kind ≠ kind then ⟨.error (.kindMismatch st.kind), some st, []⟩
    else if st.branches.length ≤ st.current_index then finalize_operation env st
    else if env.continueOk = false then
      ⟨.error (.gitFailed .rebaseContinue), some st, [.git .rebaseContinue]⟩
    else
      let st1 := { st with current_index := st.current_index + 1 }
      let pr := process_pending_operation env meta (some st1) st1
      match pr.result with
      | .error e => ⟨.error e, pr.persisted, .git .rebaseContinue :: .save st1 :: pr.events⟩
      | .ok _ =>
        let fin := finalize_operation env st1
        ⟨fin.result, fin.persisted,
          .git .rebaseContinue :: .save st1 :: (pr.events ++ fin.events)⟩

/-- `abort_operation`. -/
def abort_operation (env : GitEnv) (persisted : Option PendingOperation)
    (kind : OperationKind) : OpResult :=
  match persisted with
  | none => ⟨.error (.noOperation kind), none, []⟩
  | some st =>
    if st.kind ≠ kind then ⟨.error (.kindMismatch st.kind), some st, []⟩
    else if env.abortOk then
      ⟨.ok ("Aborted " ++ kind.name ++ " operation."), none,
        [.git .rebaseAbort, .clearCheckpoint]⟩
    else ⟨.error (.gitFailed .rebaseAbort), some st, [.git .rebaseAbort]⟩

/-- `execute_operation`: persist a fresh checkpoint, process, finalize. -/
def execute_operation (env : GitEnv) (meta : StackMetadata)
    (persisted : Option PendingOperation) (st : PendingOperation) : OpResult :=
  if st.branches.isEmpty then
    ⟨.ok ("Nothing to " ++ st.kind.name ++ "."), persisted, []⟩
  else
    let pr := process_pending_operation env meta (some st) st
    match pr.result with
    | .error e => ⟨.error e, pr.persisted, .save st :: pr.events⟩
    | .ok _ =>
      let fin := finalize_operation env st
      ⟨fin.result, fin.persisted, .save st :: (pr.events ++ fin.events)⟩

/-- Flags of `pk sync`. -/
structure SyncFlags where
  all : Bool
  from_main : Bool
  continue_rebase : Bool
  abort : Bool
deriving DecidableEq, Repr

/-- Flags of `pk restack`. -/
structure RestackFlags where
  continue_rebase : Bool
  abort : Bool
deriving DecidableEq, Repr

/-- `handle_sync` (after the initialization check). -/
def handle_sync (env : GitEnv) (meta : StackMetadata)
    (persisted : Option PendingOperation) (flags : SyncFlags) : OpResult :=
  if flags.continue_rebase && flags.abort then ⟨.error .flagsConflict, persisted, []⟩
  else if (flags.continue_rebase || flags.abort) && (flags.all || flags.from_main) then
    ⟨.error .flagsCombo, persisted, []⟩
  else if flags.continue_rebase then continue_operation env meta persisted .sync
  else if flags.abort then abort_operation env persisted .sync
  else
    match persisted with
    | some existing => ⟨.error (.alreadyInProgress existing.kind), some existing, []⟩
    | none =>
      match env.currentBranch with
      | none => ⟨.error .headNotBranch, none, []⟩
      | some cur =>
        if meta.contains cur = false then ⟨.error (.untracked cur), none, []⟩
        else
          let startB := if flags.all || flags.from_main then meta.find_stack_bottom cur else cur
          let branches := collect_branch_sequence meta startB
          if branches.isEmpty then ⟨.error (.noBranches startB), none, []⟩
          else execute_operation env meta none (PendingOperation.new .sync branches cur)

/-- `handle_restack` (after the initialization check). -/
def handle_restack (env : GitEnv) (meta : StackMetadata)
    (persisted : Option PendingOperation) (flags : RestackFlags) : OpResult :=
  if flags.continue_rebase && flags.abort then ⟨.error .flagsConflict, persisted, []⟩
  else if flags.continue_rebase then continue_operation env meta persisted .restack
  else if flags.abort then abort_operation env persisted .restack
  else
    match persisted with
    | some existing => ⟨.error (.alreadyInProgress existing.kind), some existing, []⟩
    | none =>
      match env.currentBranch with
      | none => ⟨.error .headNotBranch, none, []⟩
      | some cur =>
        if meta.contains cur = false then ⟨.error (.untracked cur), none, []⟩
        else
          let bottom := meta.find_stack_bottom cur
          let branches := collect_branch_sequence meta bottom
          if branches.isEmpty then ⟨.error (.noBranches bottom), none, []⟩
          else execute_operation env meta none (PendingOperation.new .restack branches cur)

/-- Oracle for `handle_branch_delete`: git-side branch existence, the
currently checked out branch, and whether `branch.delete()` succeeds. -/
structure DeleteEnv where
  branchExists : String → Bool
  currentBranch : Option String
  deleteOk : Bool

/-- Errors of `handle_branch_delete`. -/
inductive DeleteError where
  | notFound (b : String)
  | isCurrent (b : String)
  | unmerged (b : String)
  | deleteFailed (b : String)
deriving DecidableEq, Repr

/-- The single-quote character used by the report strings. -/
def sq : String := String.singleton (Char.ofNat 39)

/-- The success report of `handle_branch_delete`. -/
def deleteMessage (name : String) (childCount : Nat) : String :=
  if childCount = 0 then "Deleted branch " ++ sq ++ name ++ sq
  else "Deleted branch " ++ sq ++ name ++ sq ++ " and restacked "
    ++ toString childCount ++ " child branch(es)"

/-- `handle_branch_delete` (after the initialization check).  The second
component is the branch graph persisted on disk after the call:
`metadata.save` runs only after a successful git deletion, so every error
path returns the incoming `diskMeta` unchanged. -/
def handle_branch_delete (env : DeleteEnv) (diskMeta : StackMetadata)
    (name : String) (force : Bool) : Except DeleteError String × StackMetadata :=
  if env.branchExists name = false then (.error (.notFound name), diskMeta)
  else if env.currentBranch = some name then (.error (.isCurrent name), diskMeta)
  else
    let parent := diskMeta.get_parent name
    let children := diskMeta.get_children name
    let meta1 := children.foldl (fun m c => m.update_parent c parent) diskMeta
    if env.deleteOk = false then
      (if force then (.error (.deleteFailed name), diskMeta)
       else (.error (.unmerged name), diskMeta))
    else
      (.ok (deleteMessage name children.length), meta1.remove_branch name)

/-- Errors of `handle_up`. -/
inductive UpError where
  | noChildren (current : String)
  | cannotMove (count moved : Nat)
  | ambiguousMultiHop (target : String) (count : Nat)
  | multipleChildrenListed (target : String) (children : List String)
deriving DecidableEq, Repr

/-- Loop body of `handle_up` (`for i in 0..count`); `rem` is the number of
iterations left, so `rem = count - i` at every call. -/
def up_go (meta : StackMetadata) (count : Nat) (current0 : String) :
    Nat → Nat → String → Except UpError String
  | 0, _, target => .ok target
  | rem+1, i, target =>
    match meta.get_children target with
    | [] => if i = 0 then .error (.noChildren current0) else .error (.cannotMove count i)
    | [c] => up_go meta count current0 rem (i+1) c
    | c1 :: c2 :: rest =>
      if 1 < count then .error (.ambiguousMultiHop target count)
      else .error (.multipleChildrenListed target (c1 :: c2 :: rest))

/-- `handle_up` (navigation portion: the returned string is the branch the
command then checks out). -/
def handle_up (meta : StackMetadata) (current : String) (count : Nat) :
    Except UpError String :=
  up_go meta count current count 0 current

/-- Number of graph entries whose rank exceeds `b`'s: the decreasing
measure of the downward walks (`dfs`, `find_stack_top`). -/
def countAbove (m : StackMetadata) (rank : String → Nat) (b : String) : Nat :=
  (m.branches.filter (fun e => decide (rank b < rank e.1))).length

/-- Number of graph entries whose rank is below `b`'s: the decreasing
measure of the upward walk (`find_stack_bottom`). -/
def countBelow (m : StackMetadata) (rank : String → Nat) (b : String) : Nat :=
  (m.branches.filter (fun e => decide (rank e.1 < rank b))).length

/-- Single-branch graph for the C6 witness. -/
def metaC6 : StackMetadata := ⟨[("a", ⟨none, "t0"⟩)]⟩

/-- Single-branch graph for the C7 witness. -/
def metaC7 : StackMetadata := ⟨[("a", ⟨none, "t0"⟩)]⟩

/-- Graph `p → px → {pxa, pxb}` for the C8 witness. -/
def metaC8 : StackMetadata :=
  ⟨[("p", ⟨none, "t0"⟩), ("px", ⟨some "p", "t1"⟩),
    ("pxa", ⟨some "px", "t2"⟩), ("pxb", ⟨some "px", "t3"⟩)]⟩

/-- DeleteEnv for the C8 witness: deletion succeeds. -/
def envC8 : DeleteEnv := ⟨fun _ => true, some "p", true⟩

/-- Single-branch graph for the C3 witness. -/
def metaC3 : StackMetadata := ⟨[("a", ⟨none, "t0"⟩)]⟩

/-- Concrete GitEnv for the C2 witness. -/
def envC2 : GitEnv :=
  ⟨fun _ => true, fun _ => true, fun _ => true, true, true, some "main"⟩

/-- Concrete checkpoint for the C2 witness. -/
def ckC2 : PendingOperation := ⟨.restack, ["a", "b"], 1, "main"⟩

/-- GitEnv whose `rebase --abort` primitive fails. -/
def envC4bad : GitEnv :=
  ⟨fun _ => true, fun _ => true, fun _ => true, true, false, none⟩

/-- GitEnv whose `rebase --abort` primitive succeeds. -/
def envC4ok : GitEnv :=
  ⟨fun _ => true, fun _ => true, fun _ => true, true, true, none⟩

/-- Checkpoint used by the C4 counterexample and witness. -/
def ckC4 : PendingOperation := ⟨.sync, ["a"], 0, "main"⟩

/-- DeleteEnv whose git deletion fails (e.g. unmerged changes). -/
def envC5 : DeleteEnv := ⟨fun _ => true, none, false⟩

/-- Two-branch graph for the C5 counterexample: `b` is a child of `a`. -/
def metaC5 : StackMetadata := ⟨[("a", ⟨none, "t0"⟩), ("b", ⟨some "a", "t1"⟩)]⟩

/-- Stack `a → b → {c, d}` for the C9 counterexample: `a` has the single
child `b`, and `b` has two children. -/
def metaC9 : StackMetadata :=
  ⟨[("a", ⟨none, "t0"⟩), ("b", ⟨some "a", "t1"⟩),
    ("c", ⟨some "b", "t2"⟩), ("d", ⟨some "b", "t3"⟩)]⟩

/-- GitEnv for the C1 witness: every rebase succeeds except the one at
index 1, which conflicts. -/
def envC1 : GitEnv :=
  ⟨fun _ => true, fun _ => true, fun k => k == 0, true, true, none⟩

/-- Graph `main → a → b` for the C1 witness. -/
def metaC1 : StackMetadata :=
  ⟨[("a", ⟨some "main", "t0"⟩), ("b", ⟨some "a", "t1"⟩)]⟩

/-- Fresh sync checkpoint over `["a", "b"]` for the C1 witness. -/
def stC1 : PendingOperation := ⟨.sync, ["a", "b"], 0, "main"⟩

/-- Finished checkpoint for the C10 witness. -/
def ckC10 : PendingOperation := ⟨.sync, ["x", "y"], 2, "main"⟩

/-- Entry membership from `contains`. -/
theorem contains_entry {m : StackMetadata} {b : String} (h : m.contains b = true) :
    ∃ md, (b, md) ∈ m.branches := by
  obtain ⟨e, he, heq⟩ := List.any_eq_true.mp h
  obtain ⟨e1, e2⟩ := e
  have he1 : e1 = b := by simpa using heq
  subst he1
  exact ⟨e2, he⟩

/-- Children are tracked branches. -/
theorem mem_children_contains {m : StackMetadata} {c p : String}
    (h : c ∈ m.get_children p) : m.contains c = true := by
  unfold StackMetadata.get_children at h
  obtain ⟨e, he, heq⟩ := List.mem_map.mp h
  exact List.any_eq_true.mpr ⟨e, (List.mem_filter.mp he).1, by simp [heq]⟩

/-- A recorded parent edge is a child edge. -/
theorem get_parent_mem_children {m : StackMetadata} {c p : String}
    (h : m.get_parent c = some p) : c ∈ m.get_children p := by
  unfold StackMetadata.get_parent at h
  cases hf : m.branches.find? (fun e => e.1 == c) with
  | none => rw [hf] at h; exact absurd h (by simp)
  | some e =>
    rw [hf] at h
    have he1 : e.1 = c := by simpa using List.find?_some hf
    have hmem := List.mem_of_find?_eq_some hf
    unfold StackMetadata.get_children
    refine List.mem_map.mpr ⟨e, List.mem_filter.mpr ⟨hmem, ?_⟩, he1⟩
    simpa using h

/-- With `Nodup` keys (the `HashMap` invariant), `find?` returns the unique
entry of a key. -/
theorem find?_eq_of_nodup_mem :
    ∀ {l : List (String × BranchMetadata)}, (l.map Prod.fst).Nodup →
      ∀ {c : String} {md : BranchMetadata}, (c, md) ∈ l →
        l.find? (fun e => e.1 == c) = some (c, md) := by
  intro l
  induction l with
  | nil => intro _ c md hmem; simp at hmem
  | cons a t ih =>
    intro hnd c md hmem
    have hnd2 : (a.1 :: t.map Prod.fst).Nodup := by
      rw [List.map_cons] at hnd; exact hnd
    have hnd' := List.nodup_cons.mp hnd2
    rcases List.mem_cons.mp hmem with heq | hmem'
    · subst heq
      simp [List.find?_cons]
    · have hc_t : c ∈ t.map Prod.fst := List.mem_map.mpr ⟨(c, md), hmem', rfl⟩
      have hne : (a.1 == c) = false := by
        rw [beq_eq_false_iff_ne]
        intro he
        exact hnd'.1 (by rw [he]; exact hc_t)
      rw [List.find?_cons, hne]
      exact ih hnd'.2 hmem'

/-- With `Nodup` keys, a child edge determines the recorded parent. -/
theorem mem_children_get_parent {m : StackMetadata}
    (hnd : (m.branches.map Prod.fst).Nodup) {c p : String}
    (h : c ∈ m.get_children p) : m.get_parent c = some p := by
  unfold StackMetadata.get_children at h
  obtain ⟨e, he, he1⟩ := List.mem_map.mp h
  obtain ⟨hmem, hpar⟩ := List.mem_filter.mp he
  obtain ⟨e1, e2⟩ := e
  obtain rfl : e1 = c := he1
  unfold StackMetadata.get_parent
  rw [find?_eq_of_nodup_mem hnd hmem]
  simpa using hpar

/-- Pointwise-weaker filters give sublists. -/
theorem filter_sublist_filter {α} (p q : α → Bool) :
    ∀ l : List α, (∀ a ∈ l, p a = true → q a = true) →
      (l.filter p).Sublist (l.filter q) := by
  intro l
  induction l with
  | nil => intro _; simp
  | cons a t ih =>
    intro h
    have ht := ih (fun x hx => h x (List.mem_cons.mpr (Or.inr hx)))
    by_cases hp : p a = true
    · have hq := h a (List.mem_cons.mpr (Or.inl rfl)) hp
      simp only [List.filter_cons, hp, hq, if_true]
      exact List.Sublist.cons₂ a ht
    · have hp' : p a = false := Bool.eq_false_iff.mpr hp
      by_cases hq : q a = true
      · simp only [List.filter_cons, hp', hq, if_true, Bool.false_eq_true, if_false]
        exact List.Sublist.cons a ht
      · have hq' : q a = false := Bool.eq_false_iff.mpr hq
        simp only [List.filter_cons, hp', hq', Bool.false_eq_true, if_false]
        exact ht

theorem filter_length_lt {α} {l : List α} {p q : α → Bool}
    (hpq : ∀ a ∈ l, p a = true → q a = true)
    {e : α} (he : e ∈ l) (hq : q e = true) (hp : p e = false) :
    (l.filter p).length < (l.filter q).length := by
  have hsub := filter_sublist_filter p q l hpq
  rcases Nat.lt_or_ge (l.filter p).length (l.filter q).length with h | h
  · exact h
  · exfalso
    have heq : l.filter p = l.filter q :=
      hsub.eq_of_length (le_antisymm hsub.length_le h)
    have hin : e ∈ l.filter q := List.mem_filter.mpr ⟨he, hq⟩
    rw [← heq] at hin
    have := (List.mem_filter.mp hin).2
    rw [hp] at this
    exact Bool.false_ne_true this

theorem countAbove_le (m : StackMetadata) (rank : String → Nat) (b : String) :
    countAbove m rank b ≤ m.branches.length :=
  List.length_filter_le _ _

theorem countAbove_lt {m : StackMetadata} {rank : String → Nat} {b c : String}
    (hc : m.contains c = true) (h : rank b < rank c) :
    countAbove m rank c < countAbove m rank b := by
  obtain ⟨md, hmd⟩ := contains_entry hc
  refine filter_length_lt (fun a _ hpa => ?_) hmd ?_ ?_
  · have : rank c < rank a.1 := by simpa using hpa
    simp only [decide_eq_true_eq]
    omega
  · simp only [decide_eq_true_eq]
    exact h
  · simp

theorem countAbove_lt_of_child {m : StackMetadata} {rank : String → Nat}
    (hrank : ∀ p c, c ∈ m.get_children p → rank p < rank c)
    {b c : String} (hc : c ∈ m.get_children b) :
    countAbove m rank c < countAbove m rank b :=
  countAbove_lt (mem_children_contains hc) (hrank b c hc)

theorem countAbove_lt_length {m : StackMetadata} {rank : String → Nat} {b : String}
    (hb : m.contains b = true) : countAbove m rank b < m.branches.length := by
  obtain ⟨md, hmd⟩ := contains_entry hb
  exact List.length_filter_lt_length_iff_exists.mpr ⟨(b, md), hmd, by simp⟩

theorem countBelow_le (m : StackMetadata) (rank : String → Nat) (b : String) :
    countBelow m rank b ≤ m.branches.length :=
  List.length_filter_le _ _

theorem countBelow_lt {m : StackMetadata} {rank : String → Nat} {b p : String}
    (hp : m.contains p = true) (h : rank p < rank b) :
    countBelow m rank p < countBelow m rank b := by
  obtain ⟨md, hmd⟩ := contains_entry hp
  refine filter_length_lt (fun a _ hpa => ?_) hmd ?_ ?_
  · have : rank a.1 < rank p := by simpa using hpa
    simp only [decide_eq_true_eq]
    omega
  · simp only [decide_eq_true_eq]
    exact h
  · simp

/-- One-step unfolding of the `find_stack_top` loop. -/
theorem find_stack_top_go_succ (m : StackMetadata) (n : Nat) (cur : String) :
    find_stack_top_go m (n+1) cur
      = match m.get_children cur with
        | [] => cur
        | [c] => find_stack_top_go m n c
        | _ => cur := rfl

/-- One-step unfolding of the `find_stack_bottom` loop. -/
theorem find_stack_bottom_go_succ (m : StackMetadata) (n : Nat) (cur : String) :
    find_stack_bottom_go m (n+1) cur
      = match m.get_parent cur with
        | none => cur
        | some parent =>
          if m.contains parent then find_stack_bottom_go m n parent else cur := rfl

/-- The `find_stack_top` walk only follows unique-child steps. -/
theorem find_top_go_reaches (m : StackMetadata) :
    ∀ (fuel : Nat) (cur : String),
      Relation.ReflTransGen (uniqueChildStep m) cur (find_stack_top_go m fuel cur) := by
  intro fuel
  induction fuel with
  | zero =>
    intro cur
    exact Relation.ReflTransGen.refl
  | succ n ih =>
    intro cur
    rw [find_stack_top_go]
    cases hch : m.get_children cur with
    | nil => exact Relation.ReflTransGen.refl
    | cons c rest =>
      cases rest with
      | nil => exact Relation.ReflTransGen.head hch (ih c)
      | cons c2 r2 => exact Relation.ReflTransGen.refl

/-- With enough fuel (guaranteed on acyclic graphs), the `find_stack_top`
walk ends at a branch with zero or at least two children. -/
theorem find_top_go_terminal (m : StackMetadata) (rank : String → Nat)
    (hrank : ∀ p c, c ∈ m.get_children p → rank p < rank c) :
    ∀ (fuel : Nat) (cur : String), countAbove m rank cur < fuel →
      (m.get_children (find_stack_top_go m fuel cur)).length ≠ 1 := by
  intro fuel
  induction fuel with
  | zero =>
    intro cur h
    exact absurd h (Nat.not_lt_zero _)
  | succ n ih =>
    intro cur h
    rw [find_stack_top_go]
    cases hch : m.get_children cur with
    | nil => simp [hch]
    | cons c rest =>
      cases rest with
      | nil =>
        have hc : c ∈ m.get_children cur := by rw [hch]; exact List.mem_singleton_self c
        have := countAbove_lt_of_child hrank hc
        exact ih c (by omega)
      | cons c2 r2 => simp [hch]

/-- C6: `find_stack_top` repeatedly moves to the unique child, and the
branch it returns has zero children or more than one child; in particular
at a branch with two or more children it returns that branch itself, never
one of the children.  (Acyclicity is witnessed by a rank function that
strictly increases from parent to child.) -/
theorem claim6_find_top (m : StackMetadata) (rank : String → Nat)
    (hrank : ∀ p c, c ∈ m.get_children p → rank p < rank c) (b : String) :
    Relation.ReflTransGen (uniqueChildStep m) b (m.find_stack_top b) ∧
    (m.get_children (m.find_stack_top b)).length ≠ 1 ∧
    (∀ b', 2 ≤ (m.get_children b').length → m.find_stack_top b' = b') := by
  refine ⟨find_top_go_reaches m _ b, ?_, ?_⟩
  · exact find_top_go_terminal m rank hrank _ b
      (by have := countAbove_le m rank b; omega)
  · intro b' hb'
    rw [StackMetadata.find_stack_top, find_stack_top_go_succ]
    cases hch : m.get_children b' with
    | nil => rfl
    | cons c rest =>
      cases rest with
      | nil => rw [hch] at hb'; simp at hb'
      | cons c2 r2 => rfl

theorem claim6_witness :
    2 ≤ 2 ∧
    Relation.ReflTransGen (uniqueChildStep metaC6) "a" (metaC6.find_stack_top "a") ∧
    (metaC6.get_children (metaC6.find_stack_top "a")).length ≠ 1 :=
  ⟨le_refl 2,
    (claim6_find_top metaC6 (fun _ => 0)
      (by
        intro p c hmem
        rw [show metaC6.get_children p = [] from rfl] at hmem
        simp at hmem) "a").1,
    (claim6_find_top metaC6 (fun _ => 0)
      (by
        intro p c hmem
        rw [show metaC6.get_children p = [] from rfl] at hmem
        simp at hmem) "a").2.1⟩

/-- The `find_stack_bottom` walk only follows tracked-parent steps. -/
theorem find_bottom_go_reaches (m : StackMetadata) :
    ∀ (fuel : Nat) (cur : String),
      Relation.ReflTransGen (trackedParentStep m) cur
        (find_stack_bottom_go m fuel cur) := by
  intro fuel
  induction fuel with
  | zero =>
    intro cur
    exact Relation.ReflTransGen.refl
  | succ n ih =>
    intro cur
    rw [find_stack_bottom_go_succ]
    cases hp : m.get_parent cur with
    | none => exact Relation.ReflTransGen.refl
    | some parent =>
      show Relation.ReflTransGen (trackedParentStep m) cur
        (if m.contains parent = true then find_stack_bottom_go m n parent else cur)
      by_cases hc : m.contains parent = true
      · rw [if_pos hc]
        exact Relation.ReflTransGen.head ⟨hp, hc⟩ (ih parent)
      · rw [if_neg hc]

/-- With enough fuel, the branch `find_stack_bottom` returns has an
untracked or absent parent. -/
theorem find_bottom_go_terminal (m : StackMetadata) (rank : String → Nat)
    (hrank : ∀ p c, c ∈ m.get_children p → rank p < rank c) :
    ∀ (fuel : Nat) (cur : String), countBelow m rank cur < fuel →
      ∀ p, m.get_parent (find_stack_bottom_go m fuel cur) = some p →
        m.contains p = false := by
  intro fuel
  induction fuel with
  | zero =>
    intro cur h
    exact absurd h (Nat.not_lt_zero _)
  | succ n ih =>
    intro cur h
    rw [find_stack_bottom_go_succ]
    cases hp : m.get_parent cur with
    | none =>
      intro p hp2
      rw [hp] at hp2
      exact absurd hp2 (by simp)
    | some parent =>
      show ∀ p, m.get_parent
          (if m.contains parent = true then find_stack_bottom_go m n parent else cur)
            = some p → m.contains p = false
      by_cases hc : m.contains parent = true
      · rw [if_pos hc]
        have hchild : cur ∈ m.get_children parent := get_parent_mem_children hp
        have hlt : rank parent < rank cur := hrank parent cur hchild
        have := countBelow_lt hc hlt
        exact ih parent (by omega)
      · rw [if_neg hc]
        intro p hp2
        rw [hp] at hp2
        obtain rfl : parent = p := Option.some.inj hp2
        exact Bool.eq_false_iff.mpr hc

/-- C7: `find_stack_bottom` follows recorded parents through tracked
branches only, the branch it returns has an untracked or absent parent, and
it is idempotent: applying it to its own result returns that result. -/
theorem claim7_find_bottom (m : StackMetadata) (rank : String → Nat)
    (hrank : ∀ p c, c ∈ m.get_children p → rank p < rank c) (b : String) :
    Relation.ReflTransGen (trackedParentStep m) b (m.find_stack_bottom b) ∧
    (∀ p, m.get_parent (m.find_stack_bottom b) = some p →
      m.contains p = false) ∧
    m.find_stack_bottom (m.find_stack_bottom b) = m.find_stack_bottom b := by
  have hterm := find_bottom_go_terminal m rank hrank (m.branches.length + 1) b
    (by have := countBelow_le m rank b; omega)
  refine ⟨find_bottom_go_reaches m _ b, hterm, ?_⟩
  rw [StackMetadata.find_stack_bottom, find_stack_bottom_go_succ]
  cases hp : m.get_parent (m.find_stack_bottom b) with
  | none => rfl
  | some p =>
    have hfalse := hterm p hp
    show (if m.contains p = true then
        find_stack_bottom_go m m.branches.length p
      else m.find_stack_bottom b) = m.find_stack_bottom b
    rw [if_neg (by rw [hfalse]; exact Bool.false_ne_true)]

theorem claim7_witness :
    (∀ p, metaC7.get_parent (metaC7.find_stack_bottom "a") = some p →
      metaC7.contains p = false) ∧
    metaC7.find_stack_bottom (metaC7.find_stack_bottom "a")
      = metaC7.find_stack_bottom "a" :=
  ⟨(claim7_find_bottom metaC7 (fun _ => 0)
      (by
        intro p c hmem
        rw [show metaC7.get_children p = [] from rfl] at hmem
        simp at hmem) "a").2.1,
    (claim7_find_bottom metaC7 (fun _ => 0)
      (by
        intro p c hmem
        rw [show metaC7.get_children p = [] from rfl] at hmem
        simp at hmem) "a").2.2⟩

theorem contains_eq_keys (m : StackMetadata) (c : String) :
    m.contains c = (m.branches.map Prod.fst).any (fun a => a == c) := by
  unfold StackMetadata.contains
  generalize m.branches = l
  induction l with
  | nil => rfl
  | cons a t ih => simp [List.any_cons, ih]

/-- `update_parent` rewrites a parent field but never a key. -/
theorem update_parent_keys (m : StackMetadata) (x : String) (pa : Option String) :
    (m.update_parent x pa).branches.map Prod.fst = m.branches.map Prod.fst := by
  unfold StackMetadata.update_parent
  rw [List.map_map]
  refine List.map_congr_left ?_
  intro e _
  by_cases h : e.1 = x <;> simp [h]

theorem update_parent_contains (m : StackMetadata) (x : String)
    (pa : Option String) (c : String) :
    (m.update_parent x pa).contains c = m.contains c := by
  rw [contains_eq_keys, contains_eq_keys, update_parent_keys]

/-- `find?` by key commutes with a key-preserving map. -/
theorem find?_map_keyed (g : String × BranchMetadata → String × BranchMetadata)
    (hg : ∀ e, (g e).1 = e.1) (c : String) :
    ∀ l : List (String × BranchMetadata),
      (l.map g).find? (fun e => e.1 == c) = (l.find? (fun e => e.1 == c)).map g := by
  intro l
  induction l with
  | nil => rfl
  | cons a t ih =>
    rw [List.map_cons, List.find?_cons, List.find?_cons]
    by_cases h : (a.1 == c) = true
    · have h' : ((g a).1 == c) = true := by rw [hg a]; exact h
      rw [h, h']
      rfl
    · have h' : ((g a).1 == c) = false := by
        rw [hg a]
        exact Bool.eq_false_iff.mpr h
      rw [h', Bool.eq_false_iff.mpr h]
      exact ih

theorem update_parent_get_parent_other (m : StackMetadata) {x c : String}
    (pa : Option String) (hne : c ≠ x) :
    (m.update_parent x pa).get_parent c = m.get_parent c := by
  unfold StackMetadata.get_parent StackMetadata.update_parent
  rw [find?_map_keyed _ (by intro e; by_cases h : e.1 = x <;> simp [h]) c]
  cases hf : m.branches.find? (fun e => e.1 == c) with
  | none => rfl
  | some e =>
    have he1 : e.1 = c := by simpa using List.find?_some hf
    have hnex : ¬ e.1 = x := by rw [he1]; exact hne
    simp [hnex]

theorem update_parent_get_parent_self (m : StackMetadata) {c : String}
    (pa : Option String) (hc : m.contains c = true) :
    (m.update_parent c pa).get_parent c = pa := by
  obtain ⟨md, hmd⟩ := contains_entry hc
  unfold StackMetadata.get_parent StackMetadata.update_parent
  rw [find?_map_keyed _ (by intro e; by_cases h : e.1 = c <;> simp [h]) c]
  cases hf : m.branches.find? (fun e => e.1 == c) with
  | none =>
    exfalso
    have := List.find?_eq_none.mp hf (c, md) hmd
    simp at this
  | some e =>
    have he1 : e.1 = c := by simpa using List.find?_some hf
    simp [he1]

/-- The fold of `update_parent` over a list of names preserves `contains`. -/
theorem foldl_update_contains (pa : Option String) :
    ∀ (cs : List String) (m : StackMetadata) (c : String),
      ((cs.foldl (fun acc x => acc.update_parent x pa) m)).contains c
        = m.contains c := by
  intro cs
  induction cs with
  | nil => intro m c; rfl
  | cons a t ih =>
    intro m c
    rw [List.foldl_cons, ih, update_parent_contains]

theorem foldl_update_get_parent_not_mem (pa : Option String) :
    ∀ (cs : List String) (m : StackMetadata) (c : String), c ∉ cs →
      ((cs.foldl (fun acc x => acc.update_parent x pa) m)).get_parent c
        = m.get_parent c := by
  intro cs
  induction cs with
  | nil => intro m c _; rfl
  | cons a t ih =>
    intro m c hnot
    rw [List.foldl_cons, ih _ _ (fun h => hnot (List.mem_cons.mpr (Or.inr h))),
      update_parent_get_parent_other _ _ (fun h => hnot (List.mem_cons.mpr (Or.inl h)))]

/-- After folding `update_parent pa` over a duplicate-free list of tracked
names, every one of those names records parent `pa`. -/
theorem foldl_update_get_parent_mem (pa : Option String) :
    ∀ (cs : List String), cs.Nodup → ∀ (m : StackMetadata) (c : String),
      c ∈ cs → m.contains c = true →
      ((cs.foldl (fun acc x => acc.update_parent x pa) m)).get_parent c = pa := by
  intro cs
  induction cs with
  | nil => intro _ m c h; simp at h
  | cons a t ih =>
    intro hnd m c hmem hc
    rw [List.foldl_cons]
    rcases List.mem_cons.mp hmem with rfl | hmem'
    · have hnotin : c ∉ t := (List.nodup_cons.mp hnd).1
      rw [foldl_update_get_parent_not_mem pa t _ c hnotin]
      exact update_parent_get_parent_self m pa hc
    · exact ih (List.nodup_cons.mp hnd).2 _ c hmem'
        (by rw [update_parent_contains]; exact hc)

/-- Removing a branch leaves every other branch's recorded parent intact. -/
theorem remove_branch_get_parent {m : StackMetadata} {c name : String}
    (hne : c ≠ name) :
    (m.remove_branch name).get_parent c = m.get_parent c := by
  unfold StackMetadata.get_parent StackMetadata.remove_branch
  have key : ∀ l : List (String × BranchMetadata),
      (l.filter (fun e => e.1 != name)).find? (fun e => e.1 == c)
        = l.find? (fun e => e.1 == c) := by
    intro l
    induction l with
    | nil => rfl
    | cons a t ihl =>
      by_cases ha : a.1 = name
      · have hfa : (a.1 != name) = false := by simp [ha]
        have hac : (a.1 == c) = false := by
          rw [beq_eq_false_iff_ne, ha]
          exact fun h => hne h.symm
        simp only [List.filter_cons, hfa, Bool.false_eq_true, if_false,
          List.find?_cons, hac]
        exact ihl
      · have hfa : (a.1 != name) = true := by simp [ha]
        simp only [List.filter_cons, hfa, if_true, List.find?_cons]
        by_cases hac : (a.1 == c) = true
        · rw [hac]
        · rw [Bool.eq_false_iff.mpr hac]
          exact ihl
  rw [key]

/-- After `remove_branch name`, the branch `name` is untracked. -/
theorem remove_branch_contains (m : StackMetadata) (name : String) :
    (m.remove_branch name).contains name = false := by
  unfold StackMetadata.contains StackMetadata.remove_branch
  rw [List.any_eq_false]
  intro e he
  have hne := (List.mem_filter.mp he).2
  simp only [bne_iff_ne, ne_eq] at hne
  simp [hne]

/-- Duplicate-free keys give duplicate-free child lists. -/
theorem get_children_nodup {m : StackMetadata}
    (hnd : (m.branches.map Prod.fst).Nodup) (p : String) :
    (m.get_children p).Nodup := by
  unfold StackMetadata.get_children
  exact List.Nodup.sublist (List.Sublist.map Prod.fst (List.filter_sublist _)) hnd

/-- C8: deleting a tracked branch with N >= 1 children whose git deletion
succeeds re-parents all N children onto the deleted branch's recorded
parent in the persisted graph, removes the deleted branch's entry, and
reports that N child branch(es) were restacked; afterwards all the children
record the same parent, i.e. the forest shows them as siblings. -/
theorem claim8_delete_reparents (env : DeleteEnv) (diskMeta : StackMetadata)
    (name : String) (force : Bool) (rank : String → Nat)
    (hnd : (diskMeta.branches.map Prod.fst).Nodup)
    (hrank : ∀ p c, c ∈ diskMeta.get_children p → rank p < rank c)
    (hexists : env.branchExists name = true)
    (hcur : env.currentBranch ≠ some name)
    (hdel : env.deleteOk = true)
    (hchildren : 1 ≤ (diskMeta.get_children name).length) :
    (handle_branch_delete env diskMeta name force).1
      = .ok ("Deleted branch " ++ sq ++ name ++ sq ++ " and restacked "
          ++ toString (diskMeta.get_children name).length ++ " child branch(es)") ∧
    (∀ c ∈ diskMeta.get_children name,
      (handle_branch_delete env diskMeta name force).2.get_parent c
        = diskMeta.get_parent name) ∧
    (handle_branch_delete env diskMeta name force).2.contains name = false ∧
    (∀ c1 ∈ diskMeta.get_children name, ∀ c2 ∈ diskMeta.get_children name,
      (handle_branch_delete env diskMeta name force).2.get_parent c1
        = (handle_branch_delete env diskMeta name force).2.get_parent c2) := by
  have hred : handle_branch_delete env diskMeta name force
      = (.ok (deleteMessage name (diskMeta.get_children name).length),
          (((diskMeta.get_children name).foldl
              (fun m c => m.update_parent c (diskMeta.get_parent name))
              diskMeta)).remove_branch name) := by
    unfold handle_branch_delete
    rw [if_neg (by rw [hexists]; decide), if_neg hcur, hdel]
    rw [if_neg (by decide)]
  have hchild_parent : ∀ c ∈ diskMeta.get_children name,
      (handle_branch_delete env diskMeta name force).2.get_parent c
        = diskMeta.get_parent name := by
    intro c hcmem
    have hcne : c ≠ name := by
      intro h
      have := hrank name c hcmem
      rw [h] at this
      omega
    rw [hred]
    show ((((diskMeta.get_children name).foldl _ diskMeta)).remove_branch
        name).get_parent c = _
    rw [remove_branch_get_parent hcne]
    exact foldl_update_get_parent_mem _ _ (get_children_nodup hnd name) _ _
      hcmem (mem_children_contains hcmem)
  refine ⟨?_, hchild_parent, ?_, ?_⟩
  · rw [hred]
    show Except.ok (deleteMessage name (diskMeta.get_children name).length) = _
    rw [deleteMessage, if_neg (by omega)]
  · rw [hred]
    exact remove_branch_contains _ _
  · intro c1 h1 c2 h2
    rw [hchild_parent c1 h1, hchild_parent c2 h2]

theorem claim8_witness :
    (metaC8.get_children "px").length = 2 ∧
    (handle_branch_delete envC8 metaC8 "px" false).1
      = .ok ("Deleted branch " ++ sq ++ "px" ++ sq ++ " and restacked "
          ++ toString (metaC8.get_children "px").length ++ " child branch(es)") ∧
    (∀ c ∈ metaC8.get_children "px",
      (handle_branch_delete envC8 metaC8 "px" false).2.get_parent c
        = metaC8.get_parent "px") ∧
    (handle_branch_delete envC8 metaC8 "px" false).2.contains "px" = false := by
  have happ := claim8_delete_reparents envC8 metaC8 "px" false
    (fun s => s.length) (by decide)
    (by
      intro p c hmem
      by_cases hp1 : p = "p"
      · subst hp1
        have hch : metaC8.get_children "p" = ["px"] := by decide
        rw [hch] at hmem
        simp only [List.mem_singleton] at hmem
        subst hmem
        decide
      · by_cases hp2 : p = "px"
        · subst hp2
          have hch : metaC8.get_children "px" = ["pxa", "pxb"] := by decide
          rw [hch] at hmem
          rcases List.mem_cons.mp hmem with rfl | hmem2
          · decide
          · simp only [List.mem_singleton] at hmem2
            subst hmem2
            decide
        · exfalso
          have h0 : ((none : Option String) == some p) = false := rfl
          have h1 : ((some "p" : Option String) == some p) = false :=
            beq_eq_false_iff_ne.mpr (fun h => hp1 (Option.some.inj h).symm)
          have h2 : ((some "px" : Option String) == some p) = false :=
            beq_eq_false_iff_ne.mpr (fun h => hp2 (Option.some.inj h).symm)
          have hempty : metaC8.get_children p = [] := by
            unfold StackMetadata.get_children metaC8
            simp [List.filter_cons, h0, h1, h2]
          rw [hempty] at hmem
          simp at hmem)
    rfl (by decide) rfl (by decide)
  exact ⟨by decide, happ.1, happ.2.1, happ.2.2.1⟩

theorem sortedChildren_mem {m : StackMetadata} {b c : String} :
    c ∈ sortedChildren m b ↔ c ∈ m.get_children b :=
  (List.mergeSort_perm _ _).mem_iff

theorem sortedChildren_pairwise (m : StackMetadata) (b : String) :
    (sortedChildren m b).Pairwise (fun a c => a ≤ c) := by
  have h := @List.sorted_mergeSort String (fun a c : String => decide (a ≤ c))
    (by
      intro a c d h1 h2
      simp only [decide_eq_true_eq] at h1 h2 ⊢
      exact le_trans h1 h2)
    (by
      intro a c
      simpa using le_total a c)
    (m.get_children b)
  exact h.imp (by intro a c hac; simpa using hac)

theorem sortedChildren_nodup {m : StackMetadata}
    (hnd : (m.branches.map Prod.fst).Nodup) (b : String) :
    (sortedChildren m b).Nodup :=
  (List.mergeSort_perm _ _).nodup_iff.mpr (get_children_nodup hnd b)

/-- Ranks are monotone along descent. -/
theorem descendant_rank_le {m : StackMetadata} {rank : String → Nat}
    (hrank : ∀ p c, c ∈ m.get_children p → rank p < rank c)
    {a x : String} (h : Descendant m a x) : rank a ≤ rank x := by
  induction h with
  | refl => exact le_refl _
  | tail _ hbc ih => exact le_trans ih (Nat.le_of_lt (hrank _ _ hbc))

/-- Two ancestors of the same branch are comparable: the parent pointers
form a functional graph, so ancestor chains are unique. -/
theorem descendant_comparable {m : StackMetadata}
    (hnd : (m.branches.map Prod.fst).Nodup) {a b x : String}
    (hax : Descendant m a x) (hbx : Descendant m b x) :
    Descendant m a b ∨ Descendant m b a := by
  induction hax using Relation.ReflTransGen.head_induction_on with
  | refl => exact Or.inr hbx
  | head hstep hrest ih =>
    rename_i u v
    rcases ih with hvb | hbv
    · exact Or.inl (Relation.ReflTransGen.head hstep hvb)
    · rcases Relation.ReflTransGen.cases_tail hbv with heq | ⟨z, hbz, hzv⟩
      · subst heq
        exact Or.inl (Relation.ReflTransGen.single hstep)
      · have h1 : m.get_parent v = some z := mem_children_get_parent hnd hzv
        have h2 : m.get_parent v = some u := mem_children_get_parent hnd hstep
        rw [h1] at h2
        obtain rfl : z = u := Option.some.inj h2
        exact Or.inr hbz

/-- A child of `p` is never a strict descendant of a sibling. -/
theorem child_descendant_absurd {m : StackMetadata} {rank : String → Nat}
    (hnd : (m.branches.map Prod.fst).Nodup)
    (hrank : ∀ p c, c ∈ m.get_children p → rank p < rank c)
    {p c1 c2 : String} (h1 : c1 ∈ m.get_children p) (h2 : c2 ∈ m.get_children p)
    (hne : c1 ≠ c2) (hd : Descendant m c1 c2) : False := by
  rcases Relation.ReflTransGen.cases_tail hd with heq | ⟨z, hz, hstep⟩
  · exact hne heq.symm
  · have ha : m.get_parent c2 = some z := mem_children_get_parent hnd hstep
    have hb : m.get_parent c2 = some p := mem_children_get_parent hnd h2
    rw [ha] at hb
    have hzp : z = p := Option.some.inj hb
    rw [hzp] at hz
    have hle : rank c1 ≤ rank p := descendant_rank_le hrank hz
    have hlt : rank p < rank c1 := hrank p c1 h1
    omega

/-- Subtrees of distinct siblings are disjoint. -/
theorem sibling_disjoint {m : StackMetadata} {rank : String → Nat}
    (hnd : (m.branches.map Prod.fst).Nodup)
    (hrank : ∀ p c, c ∈ m.get_children p → rank p < rank c)
    {p c1 c2 : String} (h1 : c1 ∈ m.get_children p) (h2 : c2 ∈ m.get_children p)
    (hne : c1 ≠ c2) {x : String}
    (d1 : Descendant m c1 x) (d2 : Descendant m c2 x) : False := by
  rcases descendant_comparable hnd d1 d2 with h | h
  · exact child_descendant_absurd hnd hrank h1 h2 hne h
  · exact child_descendant_absurd hnd hrank h2 h1 (Ne.symm hne) h

/-- Everything the DFS lists is a descendant of the root. -/
theorem dfs_mem_descendant (m : StackMetadata) :
    ∀ (fuel : Nat) (b x : String), x ∈ dfsBranches m fuel b →
      Descendant m b x := by
  intro fuel
  induction fuel with
  | zero => intro b x h; simp [dfsBranches] at h
  | succ n ih =>
    intro b x hx
    rw [dfsBranches] at hx
    rcases List.mem_cons.mp hx with rfl | hx
    · exact Relation.ReflTransGen.refl
    · obtain ⟨c, hc, hxc⟩ := List.mem_flatMap.mp hx
      exact Relation.ReflTransGen.head (sortedChildren_mem.mp hc) (ih c x hxc)

/-- With enough fuel (measured by `countAbove`), the DFS lists every
descendant of the root. -/
theorem dfs_mem_of_descendant {m : StackMetadata} {rank : String → Nat}
    (hrank : ∀ p c, c ∈ m.get_children p → rank p < rank c) :
    ∀ (fuel : Nat) (b x : String), Descendant m b x →
      countAbove m rank b < fuel → x ∈ dfsBranches m fuel b := by
  intro fuel
  induction fuel with
  | zero => intro b x _ h; exact absurd h (Nat.not_lt_zero _)
  | succ n ih =>
    intro b x hd hcount
    rcases Relation.ReflTransGen.cases_head hd with rfl | ⟨c, hc, hcx⟩
    · rw [dfsBranches]
      exact List.mem_cons_self _ _
    · rw [dfsBranches]
      refine List.mem_cons.mpr (Or.inr (List.mem_flatMap.mpr
        ⟨c, sortedChildren_mem.mpr hc, ?_⟩))
      have := countAbove_lt_of_child hrank hc
      exact ih c x hcx (by omega)

/-- The DFS never lists a branch twice. -/
theorem dfs_nodup {m : StackMetadata} {rank : String → Nat}
    (hnd : (m.branches.map Prod.fst).Nodup)
    (hrank : ∀ p c, c ∈ m.get_children p → rank p < rank c) :
    ∀ (fuel : Nat) (b : String), (dfsBranches m fuel b).Nodup := by
  intro fuel
  induction fuel with
  | zero => intro b; simp [dfsBranches]
  | succ n ih =>
    intro b
    rw [dfsBranches]
    refine List.nodup_cons.mpr ⟨?_, ?_⟩
    · intro hb
      obtain ⟨c, hc, hbc⟩ := List.mem_flatMap.mp hb
      have h1 : rank c ≤ rank b :=
        descendant_rank_le hrank (dfs_mem_descendant m n c b hbc)
      have h2 : rank b < rank c := hrank b c (sortedChildren_mem.mp hc)
      omega
    · rw [List.nodup_flatMap]
      refine ⟨fun c _ => ih c, ?_⟩
      refine List.Pairwise.imp_of_mem ?_ (sortedChildren_nodup hnd b)
      intro c1 c2 hm1 hm2 hne x hx1 hx2
      exact sibling_disjoint hnd hrank (sortedChildren_mem.mp hm1)
        (sortedChildren_mem.mp hm2) hne
        (dfs_mem_descendant m n c1 x hx1) (dfs_mem_descendant m n c2 x hx2)

theorem flatMap_sublist_of_mem {α β : Type} (f : α → List β) {a : α} :
    ∀ {l : List α}, a ∈ l → (f a).Sublist (l.flatMap f) := by
  intro l
  induction l with
  | nil => intro h; simp at h
  | cons b t ih =>
    intro h
    rw [List.flatMap_cons]
    rcases List.mem_cons.mp h with rfl | h'
    · exact List.sublist_append_left _ _
    · exact (ih h').trans (List.sublist_append_right _ _)

/-- Every branch the DFS lists other than the root appears strictly after
its recorded parent. -/
theorem dfs_parent_before {m : StackMetadata}
    (hnd : (m.branches.map Prod.fst).Nodup) :
    ∀ (fuel : Nat) (b x : String), x ∈ dfsBranches m fuel b → x ≠ b →
      ∃ p, m.get_parent x = some p ∧
        [p, x].Sublist (dfsBranches m fuel b) := by
  intro fuel
  induction fuel with
  | zero => intro b x h; simp [dfsBranches] at h
  | succ n ih =>
    intro b x hx hne
    rw [dfsBranches] at hx ⊢
    rcases List.mem_cons.mp hx with rfl | hx
    · exact absurd rfl hne
    · obtain ⟨c, hc, hxc⟩ := List.mem_flatMap.mp hx
      by_cases hxceq : x = c
      · subst hxceq
        refine ⟨b, mem_children_get_parent hnd (sortedChildren_mem.mp hc), ?_⟩
        exact List.cons_sublist_cons.mpr (List.singleton_sublist.mpr
          (List.mem_flatMap.mpr ⟨x, hc, hxc⟩))
      · obtain ⟨p, hp, hsub⟩ := ih c x hxc hxceq
        exact ⟨p, hp, (hsub.trans (flatMap_sublist_of_mem _ hc)).cons b⟩

/-- In a `≤`-sorted list, a strictly smaller member precedes a larger one. -/
theorem pair_sublist_of_sorted :
    ∀ {l : List String}, l.Pairwise (fun a c => a ≤ c) →
      ∀ {c1 c2 : String}, c1 ∈ l → c2 ∈ l → c1 < c2 → [c1, c2].Sublist l := by
  intro l
  induction l with
  | nil => intro _ c1 c2 h; simp at h
  | cons a t ih =>
    intro hs c1 c2 h1 h2 hlt
    obtain ⟨ha, ht⟩ := List.pairwise_cons.mp hs
    rcases List.mem_cons.mp h1 with rfl | h1'
    · have hc2t : c2 ∈ t := by
        rcases List.mem_cons.mp h2 with rfl | h
        · exact absurd hlt (lt_irrefl _)
        · exact h
      exact List.cons_sublist_cons.mpr (List.singleton_sublist.mpr hc2t)
    · rcases List.mem_cons.mp h2 with rfl | h2'
      · exact absurd (lt_of_lt_of_le hlt (ha c1 h1')) (lt_irrefl _)
      · exact (ih ht h1' h2' hlt).cons a

/-- A sublist of `l` survives expanding each element `a` of `l` into a block
containing `a`. -/
theorem sublist_flatMap_of_head {g : String → List String}
    (hg : ∀ a : String, a ∈ g a) :
    ∀ {s l : List String}, s.Sublist l → s.Sublist (l.flatMap g) := by
  intro s l h
  induction h with
  | slnil => simp
  | cons a _ ih =>
    rw [List.flatMap_cons]
    exact ih.trans (List.sublist_append_right _ _)
  | cons₂ a h ih =>
    rw [List.flatMap_cons]
    obtain ⟨u, v, huv⟩ := List.append_of_mem (hg a)
    rw [huv, List.append_assoc, List.cons_append]
    refine List.Sublist.trans ?_ (List.sublist_append_right u _)
    exact List.cons_sublist_cons.mpr (ih.trans (List.sublist_append_right v _))

/-- Two siblings in lexicographic order appear in that order in the DFS of
their parent (fuel at least 2: the parent level plus the child level). -/
theorem dfs_sibling_pair {m : StackMetadata} {p c1 c2 : String}
    (h1 : c1 ∈ m.get_children p) (h2 : c2 ∈ m.get_children p) (hlt : c1 < c2) :
    ∀ fuel, 2 ≤ fuel → [c1, c2].Sublist (dfsBranches m fuel p) := by
  intro fuel h2f
  obtain ⟨n, rfl⟩ : ∃ n, fuel = n + 1 := ⟨fuel - 1, by omega⟩
  rw [dfsBranches]
  have hpair : [c1, c2].Sublist (sortedChildren m p) :=
    pair_sublist_of_sorted (sortedChildren_pairwise m p)
      (sortedChildren_mem.mpr h1) (sortedChildren_mem.mpr h2) hlt
  refine List.Sublist.cons _ ?_
  refine sublist_flatMap_of_head ?_ hpair
  intro a
  obtain ⟨k, rfl⟩ : ∃ k, n = k + 1 := ⟨n - 1, by omega⟩
  rw [dfsBranches]
  exact List.mem_cons_self _ _

/-- Siblings of any descendant of the DFS root appear in lexicographic
order in the DFS output. -/
theorem dfs_pair_of_descendant {m : StackMetadata} {rank : String → Nat}
    (hrank : ∀ p c, c ∈ m.get_children p → rank p < rank c)
    {p c1 c2 : String}
    (h1 : c1 ∈ m.get_children p) (h2 : c2 ∈ m.get_children p) (hlt : c1 < c2) :
    ∀ (fuel : Nat) (b : String), Descendant m b p →
      countAbove m rank b + 2 ≤ fuel →
      [c1, c2].Sublist (dfsBranches m fuel b) := by
  intro fuel
  induction fuel with
  | zero => intro b _ h; omega
  | succ n ih =>
    intro b hd hcount
    rcases Relation.ReflTransGen.cases_head hd with rfl | ⟨c, hc, hcp⟩
    · exact dfs_sibling_pair h1 h2 hlt (n + 1) (by omega)
    · rw [dfsBranches]
      refine List.Sublist.cons _ ?_
      have hdec := countAbove_lt_of_child hrank hc
      exact (ih c hcp (by omega)).trans
        (flatMap_sublist_of_mem _ (sortedChildren_mem.mpr hc))

/-- C3: for an acyclic graph (witnessed by a rank function increasing from
parent to child) with duplicate-free keys, `collect_branch_sequence` from a
tracked start branch is a pre-order depth-first traversal: it lists `start`
first, lists exactly the tracked descendants of `start` (each exactly once),
lists every branch other than `start` strictly after its recorded parent,
and lists siblings in lexicographic order; from an untracked start branch
it returns the empty sequence. -/
theorem claim3_collect_correct (m : StackMetadata) (start : String)
    (rank : String → Nat)
    (hnd : (m.branches.map Prod.fst).Nodup)
    (hrank : ∀ p c, c ∈ m.get_children p → rank p < rank c) :
    (m.contains start = false → collect_branch_sequence m start = []) ∧
    (m.contains start = true →
      (collect_branch_sequence m start).head? = some start ∧
      (∀ x, x ∈ collect_branch_sequence m start ↔ Descendant m start x) ∧
      (collect_branch_sequence m start).Nodup ∧
      (∀ c, c ∈ collect_branch_sequence m start → c ≠ start →
        ∃ p, m.get_parent c = some p ∧
          [p, c].Sublist (collect_branch_sequence m start)) ∧
      (∀ p c1 c2, Descendant m start p → c1 ∈ m.get_children p →
        c2 ∈ m.get_children p → c1 < c2 →
        [c1, c2].Sublist (collect_branch_sequence m start))) := by
  constructor
  · intro h
    simp [collect_branch_sequence, h]
  · intro h
    have hcol : collect_branch_sequence m start
        = dfsBranches m (m.branches.length + 1) start := by
      simp [collect_branch_sequence, h]
    rw [hcol]
    have hbound : countAbove m rank start < m.branches.length :=
      countAbove_lt_length h
    refine ⟨?_, ?_, ?_, ?_, ?_⟩
    · rw [dfsBranches]
      rfl
    · intro x
      constructor
      · exact dfs_mem_descendant m _ start x
      · intro hd
        exact dfs_mem_of_descendant hrank _ start x hd (by omega)
    · exact dfs_nodup hnd hrank _ start
    · intro c hc hne
      exact dfs_parent_before hnd _ start c hc hne
    · intro p c1 c2 hd h1 h2 hlt
      exact dfs_pair_of_descendant hrank h1 h2 hlt _ start hd (by omega)

theorem claim3_witness :
    (metaC3.branches.map Prod.fst).Nodup ∧
    metaC3.contains "a" = true ∧
    (collect_branch_sequence metaC3 "a").head? = some "a" :=
  ⟨by decide, by decide,
    ((claim3_collect_correct metaC3 "a" (fun _ => 0) (by decide)
      (by
        intro p c hmem
        rw [show metaC3.get_children p = [] from rfl] at hmem
        simp at hmem)).2 rfl).1⟩

/-- C2: while any checkpoint exists, starting a new bulk operation (sync or
restack, either kind recorded in the checkpoint) fails with the
operation-already-in-progress error naming the active kind, performs no git
call and no file write (`events = []`), and leaves the persisted checkpoint
value — hence its serialized bytes — unchanged. -/
theorem claim2_start_requires_idle (env : GitEnv) (meta : StackMetadata)
    (existing : PendingOperation) (sflags : SyncFlags) (rflags : RestackFlags)
    (hs1 : sflags.continue_rebase = false) (hs2 : sflags.abort = false)
    (hr1 : rflags.continue_rebase = false) (hr2 : rflags.abort = false) :
    handle_sync env meta (some existing) sflags
      = ⟨.error (.alreadyInProgress existing.kind), some existing, []⟩ ∧
    handle_restack env meta (some existing) rflags
      = ⟨.error (.alreadyInProgress existing.kind), some existing, []⟩ := by
  constructor
  · simp [handle_sync, hs1, hs2]
  · simp [handle_restack, hr1, hr2]

theorem claim2_witness :
    (⟨true, false, false, false⟩ : SyncFlags).continue_rebase = false ∧
    handle_sync envC2 ⟨[]⟩ (some ckC2) ⟨true, false, false, false⟩
      = ⟨.error (.alreadyInProgress .restack), some ckC2, []⟩ ∧
    handle_restack envC2 ⟨[]⟩ (some ckC2) ⟨false, false⟩
      = ⟨.error (.alreadyInProgress .restack), some ckC2, []⟩ :=
  ⟨rfl,
    (claim2_start_requires_idle envC2 ⟨[]⟩ ckC2 ⟨true, false, false, false⟩ ⟨false, false⟩
      rfl rfl rfl rfl).1,
    (claim2_start_requires_idle envC2 ⟨[]⟩ ckC2 ⟨true, false, false, false⟩ ⟨false, false⟩
      rfl rfl rfl rfl).2⟩

/-- C4 counterexample: a matching-kind `abort_operation` call that passes
the existence and kind checks does NOT always clear the checkpoint — when
the engine's `rebase --abort` primitive fails, the error propagates before
`PendingOperation::clear` runs, and the checkpoint remains on disk.  So the
clearing is not unconditional. -/
theorem claim4_abort_counterexample :
    ckC4.kind = .sync ∧
    (abort_operation envC4bad (some ckC4) .sync).events = [.git .rebaseAbort] ∧
    (abort_operation envC4bad (some ckC4) .sync).persisted = some ckC4 := by
  refine ⟨rfl, rfl, rfl⟩

/-- C4 (amended): whenever a checkpoint of the requested kind exists,
`abort_operation` invokes the engine's rebase-abort primitive and — provided
that primitive succeeds — clears the checkpoint and reports completion; if
the primitive fails, the checkpoint is left in place. -/
theorem claim4_abort_clears (env : GitEnv) (st : PendingOperation)
    (kind : OperationKind) (hkind : st.kind = kind) (habort : env.abortOk = true) :
    abort_operation env (some st) kind
      = ⟨.ok ("Aborted " ++ kind.name ++ " operation."), none,
          [.git .rebaseAbort, .clearCheckpoint]⟩ := by
  simp [abort_operation, hkind, habort]

theorem claim4_witness :
    ckC4.kind = .sync ∧ envC4ok.abortOk = true ∧
    abort_operation envC4ok (some ckC4) .sync
      = ⟨.ok ("Aborted sync operation."), none, [.git .rebaseAbort, .clearCheckpoint]⟩ :=
  ⟨rfl, rfl, claim4_abort_clears envC4ok ckC4 .sync rfl rfl⟩

/-- C5 counterexample: deleting tracked branch `a` (one surviving child `b`)
when the git deletion fails leaves the PERSISTED graph unchanged — `b` still
records parent `a` — because `metadata.save` runs only after a successful
deletion.  The claim asserts the persisted graph is already rewritten at
that point; it is not (the re-parenting happened only in memory). -/
theorem claim5_counterexample :
    metaC5.get_children "a" = ["b"] ∧
    (handle_branch_delete envC5 metaC5 "a" false).1 = .error (.unmerged "a") ∧
    (handle_branch_delete envC5 metaC5 "a" false).2 = metaC5 ∧
    (handle_branch_delete envC5 metaC5 "a" false).2.get_parent "b" = some "a" := by
  refine ⟨rfl, rfl, rfl, rfl⟩

/-- C5 (amended): branch deletion re-parents surviving children only in the
in-memory copy of the graph before attempting the git deletion; the rewritten
graph is persisted only after the deletion succeeds, so a deletion that fails
(e.g. the unmerged-changes check) leaves the persisted graph exactly as it
was (and reports an error). -/
theorem claim5_failed_delete_leaves_graph (env : DeleteEnv)
    (diskMeta : StackMetadata) (name : String) (force : Bool)
    (hfail : env.deleteOk = false) :
    (handle_branch_delete env diskMeta name force).2 = diskMeta ∧
    ∃ e, (handle_branch_delete env diskMeta name force).1 = .error e := by
  unfold handle_branch_delete
  by_cases h1 : env.branchExists name = false
  · rw [if_pos h1]; exact ⟨rfl, _, rfl⟩
  · rw [if_neg h1]
    by_cases h2 : env.currentBranch = some name
    · rw [if_pos h2]; exact ⟨rfl, _, rfl⟩
    · rw [if_neg h2, hfail, if_pos rfl]
      by_cases h3 : force = true
      · rw [if_pos h3]; exact ⟨rfl, _, rfl⟩
      · rw [if_neg h3]; exact ⟨rfl, _, rfl⟩

theorem claim5_witness :
    envC5.deleteOk = false ∧
    (handle_branch_delete envC5 metaC5 "b" true).2 = metaC5 ∧
    ∃ e, (handle_branch_delete envC5 metaC5 "b" true).1 = .error e :=
  ⟨rfl, (claim5_failed_delete_leaves_graph envC5 metaC5 "b" true rfl).1,
    (claim5_failed_delete_leaves_graph envC5 metaC5 "b" true rfl).2⟩

/-- C9 counterexample: `up(2)` starting at `a` hits the multi-child branch
`b` on the SECOND hop (the first hop, at `a`, is unambiguous) and still
fails with the ambiguous-children error — so for multi-hop requests the
failure is not restricted to the very first hop. -/
theorem claim9_counterexample :
    metaC9.get_children "a" = ["b"] ∧
    handle_up metaC9 "a" 2 = .error (.ambiguousMultiHop "b" 2) ∧
    "b" ≠ "a" := by
  refine ⟨rfl, rfl, by decide⟩

/-- C9 (amended): for a request with `count > 1`, encountering a branch
with more than one child at ANY hop of the walk fails with the
ambiguous-children error naming that branch; a single-hop request
(`count = 1`) at a multi-child branch instead fails with the error that
lists the candidate children. -/
theorem claim9_up_policy (meta : StackMetadata) (count : Nat) (cur0 : String) :
    (∀ rem i target c1 c2 rest, meta.get_children target = c1 :: c2 :: rest →
        1 < count →
        up_go meta count cur0 (rem+1) i target
          = .error (.ambiguousMultiHop target count)) ∧
    (∀ c1 c2 rest, meta.get_children cur0 = c1 :: c2 :: rest →
        handle_up meta cur0 1
          = .error (.multipleChildrenListed cur0 (c1 :: c2 :: rest))) := by
  constructor
  · intro rem i target c1 c2 rest h hcount
    simp [up_go, h, hcount]
  · intro c1 c2 rest h
    simp [handle_up, up_go, h]

theorem claim9_witness :
    metaC9.get_children "b" = ["c", "d"] ∧
    up_go metaC9 2 "a" 1 1 "b" = .error (.ambiguousMultiHop "b" 2) ∧
    handle_up metaC9 "b" 1 = .error (.multipleChildrenListed "b" ["c", "d"]) :=
  ⟨rfl,
    (claim9_up_policy metaC9 2 "a").1 0 1 "b" "c" "d" [] rfl (by decide),
    (claim9_up_policy metaC9 1 "b").2 "c" "d" [] rfl⟩

/-- C10: when `continue_operation` runs against a matching-kind checkpoint
whose `current_index` already reached the end of the sequence, it behaves
exactly as `finalize_operation`: the only effects are the checkpoint
removal and the checkout of `original_branch` (in that order) — in
particular the engine's rebase-continue primitive is never invoked and no
checkpoint write (index modification) occurs — the persisted checkpoint is
gone afterwards, and, provided the checkout succeeds, the reported message
lists the full branch sequence. -/
theorem claim10_continue_finalizes (env : GitEnv) (meta : StackMetadata)
    (st : PendingOperation) (kind : OperationKind)
    (hkind : st.kind = kind) (hdone : st.branches.length ≤ st.current_index) :
    continue_operation env meta (some st) kind = finalize_operation env st ∧
    (continue_operation env meta (some st) kind).persisted = none ∧
    (continue_operation env meta (some st) kind).events
      = [.clearCheckpoint, .git (.checkout st.original_branch)] ∧
    (env.checkoutOk st.original_branch = true →
      (continue_operation env meta (some st) kind).result
        = .ok (st.kind.past_tense ++ " " ++ toString st.branches.length
            ++ " branch(es): " ++ String.intercalate " -> " st.branches)) := by
  have h1 : continue_operation env meta (some st) kind = finalize_operation env st := by
    simp [continue_operation, hkind, hdone]
  refine ⟨h1, ?_, ?_, ?_⟩
  · rw [h1]; unfold finalize_operation; split <;> rfl
  · rw [h1]; unfold finalize_operation; split <;> rfl
  · intro hco; rw [h1]; unfold finalize_operation; rw [if_pos hco]

theorem getElem?_eq_some_getD (l : List String) (i : Nat) (h : i < l.length) :
    l[i]? = some (l.getD i "") := by
  simp [List.getD_eq_getElem?_getD, List.getElem?_eq_getElem h]

theorem set_index_eta (st : PendingOperation) (j : Nat) (h : st.current_index = j) :
    ({ st with current_index := j } : PendingOperation) = st := by
  cases st; cases h; rfl

/-- Every rebase issued by the processing loop targets a branch at an index
at or beyond the starting `current_index`: completed steps are never
re-processed. -/
theorem process_go_rebase_indices (env : GitEnv) (meta : StackMetadata) :
    ∀ (fuel : Nat) (st : PendingOperation) (persisted : Option PendingOperation)
      (b p : String),
      PkEvent.git (.rebase b p) ∈ (process_go env meta fuel st persisted).events →
      ∃ k, st.current_index ≤ k ∧ st.branches[k]? = some b := by
  intro fuel
  induction fuel with
  | zero =>
    intro st persisted b p h
    simp [process_go] at h
  | succ n ih =>
    intro st persisted b p h
    obtain ⟨kind, branches, i, orig⟩ := st
    simp only [process_go] at h
    split at h
    · rename_i hlt
      have hlt' : i < branches.length := hlt
      split at h
      · simp at h
      · split at h
        · simp at h
        · rename_i parent hpar
          split at h
          · simp at h
          · split at h
            · simp only [List.mem_cons, List.not_mem_nil, or_false] at h
              rcases h with h | h
              · simp at h
              · simp only [PkEvent.git.injEq, GitCall.rebase.injEq] at h
                obtain ⟨rfl, rfl⟩ := h
                exact ⟨i, le_refl _, getElem?_eq_some_getD _ _ hlt'⟩
            · simp only [List.mem_cons] at h
              rcases h with h | h | h | h
              · simp at h
              · simp only [PkEvent.git.injEq, GitCall.rebase.injEq] at h
                obtain ⟨rfl, rfl⟩ := h
                exact ⟨i, le_refl _, getElem?_eq_some_getD _ _ hlt'⟩
              · simp at h
              · obtain ⟨k, hk1, hk2⟩ := ih _ _ b p h
                have hk1' : i + 1 ≤ k := hk1
                refine ⟨k, ?_, hk2⟩
                show i ≤ k
                omega
    · simp at h

/-- If every rebase from the starting index up to (but excluding) `j`
succeeds and the rebase at `j` fails, processing stops with the conflict
error for the branch at index `j`, and the checkpoint on disk carries
`current_index = j` — the failing index, not `j + 1`. -/
theorem process_conflict_persists (env : GitEnv) (meta : StackMetadata) :
    ∀ (d : Nat) (st : PendingOperation) (j : Nat),
      st.current_index + d = j →
      j < st.branches.length →
      (∀ k, k < j → st.current_index ≤ k → env.rebaseOk k = true) →
      env.rebaseOk j = false →
      (∀ k, k ≤ j → st.current_index ≤ k →
        env.branchExists (st.branches.getD k "") = true) →
      (∀ k, k ≤ j → st.current_index ≤ k →
        (meta.get_parent (st.branches.getD k "")).isSome = true) →
      (∀ b, env.checkoutOk b = true) →
      (process_pending_operation env meta (some st) st).persisted
          = some { st with current_index := j } ∧
      ∃ p, (process_pending_operation env meta (some st) st).result
          = .error (.rebaseConflict (st.branches.getD j "") p st.kind) := by
  intro d
  induction d with
  | zero =>
    intro st j hd hlt hok hbad hex hpar hco
    obtain ⟨kind, branches, i, orig⟩ := st
    have hij : i = j := by simpa using hd
    subst hij
    have hlt' : i < branches.length := hlt
    have hfuel : branches.length - i = (branches.length - i - 1) + 1 := by omega
    have hexi : env.branchExists (branches.getD i "") = true :=
      hex i (le_refl i) (le_refl i)
    obtain ⟨parent, hp⟩ :=
      Option.isSome_iff_exists.mp (hpar i (le_refl i) (le_refl i))
    have hp' : meta.get_parent (branches.getD i "") = some parent := hp
    have hcoi : env.checkoutOk (branches.getD i "") = true := hco _
    rw [process_pending_operation]
    show (process_go env meta (branches.length - i) _ _).persisted = _ ∧ _
    rw [hfuel]
    simp only [process_go, hlt', if_true, hexi, hp', hcoi, hbad,
      Bool.true_eq_false, if_false, reduceIte]
    exact ⟨trivial, parent, rfl⟩
  | succ d ih =>
    intro st j hd hlt hok hbad hex hpar hco
    obtain ⟨kind, branches, i, orig⟩ := st
    have hij : i + (d + 1) = j := hd
    have hjlen : j < branches.length := hlt
    have hilt : i < branches.length := by omega
    have hfuel : branches.length - i = (branches.length - i - 1) + 1 := by omega
    have hexi : env.branchExists (branches.getD i "") = true :=
      hex i (by omega) (le_refl i)
    obtain ⟨parent, hp⟩ :=
      Option.isSome_iff_exists.mp (hpar i (by omega) (le_refl i))
    have hp' : meta.get_parent (branches.getD i "") = some parent := hp
    have hcoi : env.checkoutOk (branches.getD i "") = true := hco _
    have hoki : env.rebaseOk i = true := hok i (by omega) (le_refl i)
    rw [process_pending_operation]
    show (process_go env meta (branches.length - i) _ _).persisted = _ ∧ _
    rw [hfuel]
    simp only [process_go, hilt, if_true, hexi, hp', hcoi, hoki,
      Bool.true_eq_false, if_false, reduceIte]
    have hnext := ih ⟨kind, branches, i + 1, orig⟩ j (by show i + 1 + d = j; omega)
      hlt
      (fun k hk1 hk2 => hok k hk1 (by show i ≤ k; exact Nat.le_of_succ_le hk2))
      hbad
      (fun k hk1 hk2 => hex k hk1 (by show i ≤ k; exact Nat.le_of_succ_le hk2))
      (fun k hk1 hk2 => hpar k hk1 (by show i ≤ k; exact Nat.le_of_succ_le hk2))
      hco
    rw [process_pending_operation] at hnext
    exact hnext

/-- On a matching-kind checkpoint that still has work left,
`continue_operation` first invokes the engine's rebase-continue, then
persists the checkpoint with the index advanced by one, and every rebase it
issues afterwards targets an index at or beyond that advanced position. -/
theorem continue_resumes (env : GitEnv) (meta : StackMetadata)
    (s : PendingOperation)
    (hlt : s.current_index < s.branches.length) (hcont : env.continueOk = true) :
    ∃ tail,
      (continue_operation env meta (some s) s.kind).events
        = .git .rebaseContinue
            :: .save { s with current_index := s.current_index + 1 } :: tail ∧
      ∀ b p, PkEvent.git (.rebase b p) ∈ tail →
        ∃ k, s.current_index + 1 ≤ k ∧ s.branches[k]? = some b := by
  obtain ⟨kind, branches, ci, orig⟩ := s
  have hlt' : ci < branches.length := hlt
  have hnotdone : ¬ branches.length ≤ ci := by omega
  simp only [continue_operation, ne_eq, not_true_eq_false, if_false,
    reduceIte, hnotdone, hcont, Bool.true_eq_false]
  cases hres : (process_pending_operation env meta
      (some ⟨kind, branches, ci + 1, orig⟩) ⟨kind, branches, ci + 1, orig⟩).result with
  | error e =>
    refine ⟨(process_pending_operation env meta
        (some ⟨kind, branches, ci + 1, orig⟩) ⟨kind, branches, ci + 1, orig⟩).events,
      ?_, ?_⟩
    · simp only [hres]
    · intro b p hmem
      exact process_go_rebase_indices env meta _ _ _ b p hmem
  | ok u =>
    refine ⟨(process_pending_operation env meta
        (some ⟨kind, branches, ci + 1, orig⟩) ⟨kind, branches, ci + 1, orig⟩).events
        ++ (finalize_operation env ⟨kind, branches, ci + 1, orig⟩).events, ?_, ?_⟩
    · simp only [hres]
    · intro b p hmem
      rcases List.mem_append.mp hmem with hmem | hmem
      · exact process_go_rebase_indices env meta _ _ _ b p hmem
      · unfold finalize_operation at hmem
        split at hmem <;> simp at hmem

/-- C1: a conflict while processing index `j` leaves the persisted
checkpoint at `current_index = j` (the successful steps before it were each
persisted, the failing one was not advanced past), and the reported error
names the branch at index `j`; a subsequent `continue_operation` of the
matching kind first invokes the engine's rebase-continue, then persists the
checkpoint advanced to `j + 1`, and resumes processing from index `j + 1`:
every rebase it issues afterwards targets a branch at an index `≥ j + 1`,
so no branch whose step already completed is ever re-processed. -/
theorem claim1_conflict_and_resume (env : GitEnv) (meta : StackMetadata)
    (st : PendingOperation) (j : Nat)
    (hj : st.current_index ≤ j) (hjn : j < st.branches.length)
    (hok : ∀ k, k < j → st.current_index ≤ k → env.rebaseOk k = true)
    (hbad : env.rebaseOk j = false)
    (hex : ∀ k, k ≤ j → st.current_index ≤ k →
      env.branchExists (st.branches.getD k "") = true)
    (hpar : ∀ k, k ≤ j → st.current_index ≤ k →
      (meta.get_parent (st.branches.getD k "")).isSome = true)
    (hco : ∀ b, env.checkoutOk b = true) :
    (process_pending_operation env meta (some st) st).persisted
        = some { st with current_index := j } ∧
    (∃ p, (process_pending_operation env meta (some st) st).result
        = .error (.rebaseConflict (st.branches.getD j "") p st.kind)) ∧
    (∀ env' : GitEnv, env'.continueOk = true →
      ∃ tail,
        (continue_operation env' meta (some { st with current_index := j })
            st.kind).events
          = .git .rebaseContinue :: .save { st with current_index := j + 1 } :: tail ∧
        ∀ b p, PkEvent.git (.rebase b p) ∈ tail →
          ∃ k, j + 1 ≤ k ∧ st.branches[k]? = some b) := by
  obtain ⟨main1, main2⟩ := process_conflict_persists env meta (j - st.current_index)
    st j (by omega) hjn hok hbad hex hpar hco
  exact ⟨main1, main2,
    fun env' hcont => continue_resumes env' meta { st with current_index := j } hjn hcont⟩

theorem claim1_witness :
    stC1.current_index ≤ 1 ∧ 1 < stC1.branches.length ∧
    envC1.rebaseOk 1 = false ∧
    (process_pending_operation envC1 metaC1 (some stC1) stC1).persisted
      = some { stC1 with current_index := 1 } :=
  ⟨by decide, by decide, rfl,
    (claim1_conflict_and_resume envC1 metaC1 stC1 1 (by decide) (by decide)
      (by
        intro k hk _
        have hk0 : k = 0 := by omega
        subst hk0
        rfl)
      rfl
      (by intro k _ _; rfl)
      (by
        intro k hk _
        have hk01 : k = 0 ∨ k = 1 := by omega
        rcases hk01 with rfl | rfl <;> rfl)
      (fun b => rfl)).1⟩

theorem claim10_witness :
    ckC10.kind = .sync ∧ ckC10.branches.length ≤ ckC10.current_index ∧
    continue_operation envC2 ⟨[]⟩ (some ckC10) .sync = finalize_operation envC2 ckC10 ∧
    (continue_operation envC2 ⟨[]⟩ (some ckC10) .sync).persisted = none ∧
    (continue_operation envC2 ⟨[]⟩ (some ckC10) .sync).result
      = .ok ("Synced 2 branch(es): x -> y") :=
  ⟨rfl, by decide,
    (claim10_continue_finalizes envC2 ⟨[]⟩ ckC10 .sync rfl (by decide)).1,
    (claim10_continue_finalizes envC2 ⟨[]⟩ ckC10 .sync rfl (by decide)).2.1,
    (claim10_continue_finalizes envC2 ⟨[]⟩ ckC10 .sync rfl (by decide)).2.2.2 rfl⟩

end Pancake
